import Mathlib

/-!
Verification of the extraction / harmonization / rank-transform /
replicate-consistency pipeline of the drug_repurposing repository.

The Lean definitions below are shallow embeddings of the Python sources:

* `scripts/preprocessing/generate_valid_instances.py`
  (`calculate_raw_stats`, `apply_filters`): replicate-consistency
  validator — leave-one-out peer consensus, r/p records, validity filters.
* `scripts/preprocessing/extract_OG_tahoe_part_2_rank_and_save_parquet.py`
  and `scripts/filter_tahoe_part2_ranking.py` (`main` / module level):
  gene-identifier harmonization (symbol → canonical id lookup, duplicate
  collapse by elementwise mean, intersection with a shared reference set)
  and the chunked descending first-tie rank transform
  (`DataFrame.rank(axis=0, method="first", ascending=False,
  na_option="bottom")` applied in column batches).
* `scripts/preprocessing/extract_OG_tahoe_part_1.py` (`part1_h5_to_parquet`,
  `process_h5_chunk`): the sorted-read / unsort column selection scheme
  built on `np.argsort`.

Machine floats are modelled as `ℚ` (the pipeline's properties under
scrutiny are exact-arithmetic ones; the spec says "up to floating-point
tolerance"), missing values (NaN) as `Option.none`, gene symbols and
experiment / instance identifiers as opaque numeric keys.
-/

namespace DrugRepro

/-! ## Replicate-consistency validator (`generate_valid_instances.py`)

`calculate_raw_stats` works on a signature matrix whose columns are
experiment instances (vectors indexed by genes) and on metadata grouping
instances by drug.  A gene axis is an arbitrary type `G`; a column is a
total function `G → ℚ`.  A matrix is a partial map from instance id to
column: `none` models "id not among `sig_matrix.columns`".
-/

/-- Instance identifiers (`id`, kept as strings in the source) are opaque
keys; modelled as naturals. -/
abbrev InstId := ℕ

/-- Drug names are opaque keys; modelled as naturals. -/
abbrev DrugName := ℕ

/-- One row of the validator's output: source dict
`\x7bid, drug_name, r, p, num_peers\x7d` (plus, after `apply_filters`, the
`valid` flag, computed by the `valid*` functions below).  `none` for `r`/`p`
models `np.nan`. -/
structure RawRecord where
  id : InstId
  drugName : DrugName
  r : Option ℚ
  p : Option ℚ
  numPeers : ℕ
deriving DecidableEq, Repr

/-- `valid_matrix_ids = [pid for pid in instance_ids if pid in sig_matrix.columns]`. -/
def presentIds {G : Type} (cols : InstId → Option (G → ℚ)) (ids : List InstId) : List InstId :=
  ids.filter (fun pid => (cols pid).isSome)

/-- The column vector of a matrix-present instance (arbitrary default for
absent ids, which the source never reads on the scored path). -/
def colVec {G : Type} (cols : InstId → Option (G → ℚ)) (pid : InstId) : G → ℚ :=
  (cols pid).getD (fun _ => 0)

/-- `total_sum_vector = drug_sig_matrix.sum(axis=1)`: the elementwise sum of
the group's member columns. -/
def groupTotal {G : Type} (cols : InstId → Option (G → ℚ)) (vids : List InstId) : G → ℚ :=
  fun g => (vids.map (fun pid => colVec cols pid g)).sum

/-- `scipy.stats.pearsonr` is external library code; it is a parameter of the
embedding.  `none` models a NaN correlation or a raised `ValueError`. -/
abbrev PearsonFn (G : Type) := (G → ℚ) → (G → ℚ) → Option (ℚ × ℚ)

/-- `r, p = pearsonr(...)`; `if pd.isna(r): r, p = 0.0, 1.0` and
`except ValueError: r, p = 0.0, 1.0`: degenerate correlations collapse to
the sentinel `(0, 1)`. -/
def pearsonSafe {G : Type} (pr : PearsonFn G) (a b : G → ℚ) : ℚ × ℚ :=
  (pr a b).getD (0, 1)

/-- `peer_consensus = peer_sum_vector / (num_instances - 1)` with
`peer_sum_vector = total_sum_vector - current_instance_sig`
(`calculate_raw_stats`, lines 185-191). -/
def loConsensus {G : Type} (cols : InstId → Option (G → ℚ)) (vids : List InstId)
    (pid : InstId) : G → ℚ :=
  fun g => (groupTotal cols vids g - colVec cols pid g) / ((vids.length : ℚ) - 1)

/-- The per-group body of `calculate_raw_stats` (lines 165-206): count the
matrix-present instances; with at most one, emit the unscored
`r = p = NaN, num_peers = 0` record for every instance id of the group;
otherwise score every matrix-present instance against the leave-one-out
peer consensus `(total_sum − vector_i) / (k − 1)`. -/
def processGroup {G : Type} (pr : PearsonFn G) (cols : InstId → Option (G → ℚ))
    (dname : DrugName) (ids : List InstId) : List RawRecord :=
  if (presentIds cols ids).length ≤ 1 then
    ids.map (fun pid => ⟨pid, dname, none, none, 0⟩)
  else
    (presentIds cols ids).map (fun pid =>
      ⟨pid, dname,
        some (pearsonSafe pr (colVec cols pid)
          (loConsensus cols (presentIds cols ids) pid)).1,
        some (pearsonSafe pr (colVec cols pid)
          (loConsensus cols (presentIds cols ids) pid)).2,
        (presentIds cols ids).length - 1⟩)

/-- The leave-one-out consensus formula of `calculate_raw_stats`
(lines 185-191), standalone over a list of member vectors:
`peer_consensus = (total_sum_vector − current_instance_sig) / (num_instances − 1)`. -/
def peerConsensusAt {G : Type} (vs : List (G → ℚ)) (i : Fin vs.length) : G → ℚ :=
  fun g => ((vs.map (fun v => v g)).sum - vs.get i g) / ((vs.length : ℚ) - 1)

/-- Spec-side quantity for claim C2: the elementwise arithmetic mean of the
other members (all members except the one at position `i`). -/
def meanOfOthers {G : Type} (vs : List (G → ℚ)) (i : Fin vs.length) : G → ℚ :=
  fun g =>
    (((vs.eraseIdx i.val).map (fun v => v g)).sum) / (((vs.eraseIdx i.val).length : ℚ))

/-! ### `apply_filters` (lines 212-252)

`valid` is initialised to 0 and set to 1 where `valid_stats_mask & mask`
holds; `valid_stats_mask = results_df['r'].notna()`, and pandas comparisons
against NaN are `False`. -/

/-- Pandas `o < τ` on a possibly-NaN value: `False` when NaN. -/
def oltB (o : Option ℚ) (t : ℚ) : Bool :=
  match o with
  | some x => decide (x < t)
  | none => false

/-- Pandas `o > τ` on a possibly-NaN value: `False` when NaN. -/
def ogtB (o : Option ℚ) (t : ℚ) : Bool :=
  match o with
  | some x => decide (t < x)
  | none => false

/-- Pandas `o >= τ` on a possibly-NaN value: `False` when NaN. -/
def ogeB (o : Option ℚ) (t : ℚ) : Bool :=
  match o with
  | some x => decide (t ≤ x)
  | none => false

/-- p-value mode: `valid_stats_mask & (p < threshold) & (r > 0)`. -/
def validPvalue (rec : RawRecord) (t : ℚ) : Bool :=
  rec.r.isSome && (oltB rec.p t && ogtB rec.r 0)

/-- r-value mode: `valid_stats_mask & (r > threshold)`. -/
def validRvalue (rec : RawRecord) (t : ℚ) : Bool :=
  rec.r.isSome && ogtB rec.r t

/-- Percentile mode at an already-computed r cutoff:
`valid_stats_mask & (r >= r_cutoff) & (r > 0)`.  (The cutoff itself comes
from `np.nanpercentile` over the run's rankable instances; it enters here
as a parameter.) -/
def validPercentileAt (rec : RawRecord) (cutoff : ℚ) : Bool :=
  rec.r.isSome && (ogeB rec.r cutoff && ogtB rec.r 0)

/-- Number of experiments marked valid in p-value mode. -/
def countValidP (recs : List RawRecord) (t : ℚ) : ℕ :=
  (recs.filter (fun rec => validPvalue rec t)).length

/-- Number of experiments marked valid in r-value mode. -/
def countValidR (recs : List RawRecord) (t : ℚ) : ℕ :=
  (recs.filter (fun rec => validRvalue rec t)).length

/-! ### Helper lemmas -/

/-- Splitting a mapped sum at one position: the sum over all members is the
member at `i` plus the sum over the rest. -/
theorem sum_map_eraseIdx {α : Type} (f : α → ℚ) :
    ∀ (vs : List α) (i : Fin vs.length),
      (vs.map f).sum = f (vs.get i) + ((vs.eraseIdx i.val).map f).sum := by
  intro vs
  induction vs with
  | nil => exact fun i => absurd i.isLt (by simp)
  | cons v rest ih =>
    intro i
    rcases i with ⟨iv, hlt⟩
    cases iv with
    | zero => simp [List.eraseIdx]
    | succ n =>
      have hn : n < rest.length := by simpa using hlt
      have hrec := ih ⟨n, hn⟩
      have hget : (v :: rest).get ⟨n + 1, hlt⟩ = rest.get ⟨n, hn⟩ := rfl
      simp only [List.map_cons, List.sum_cons, List.eraseIdx]
      rw [hget, hrec]
      ring

/-- Counting a filtered list is monotone in the predicate. -/
theorem length_filter_mono {α : Type} (P Q : α → Bool) :
    ∀ (l : List α), (∀ x ∈ l, P x = true → Q x = true) →
      (l.filter P).length ≤ (l.filter Q).length := by
  intro l
  induction l with
  | nil => simp
  | cons a l ih =>
    intro h
    by_cases hP : P a = true
    · have hQ : Q a = true := h a (List.mem_cons_self a l) hP
      simp only [List.filter_cons, hP, hQ, if_true]
      simpa using ih (fun x hx => h x (List.mem_cons_of_mem a hx))
    · simp only [List.filter_cons, hP]
      have hrec := ih (fun x hx => h x (List.mem_cons_of_mem a hx))
      cases hQ : Q a <;> simp [hQ] <;> omega

/-! ## Claim theorems for the validator -/

/-- Claim C2: for every replicate group of size k ≥ 2 the peer-consensus
vector `(total_sum − vector_i) / (k − 1)` of member i equals the elementwise
arithmetic mean of the other k − 1 member vectors, for every member i. -/
theorem peer_consensus_is_mean_of_others {G : Type} (vs : List (G → ℚ))
    (i : Fin vs.length) (hk : 2 ≤ vs.length) :
    peerConsensusAt vs i = meanOfOthers vs i := by
  funext g
  unfold peerConsensusAt meanOfOthers
  have hlen : (vs.eraseIdx i.val).length = vs.length - 1 :=
    List.length_eraseIdx_of_lt i.isLt
  have hsplit := sum_map_eraseIdx (fun v => v g) vs i
  rw [hsplit, hlen]
  have hcast : ((vs.length - 1 : ℕ) : ℚ) = (vs.length : ℚ) - 1 := by
    have h1 : 1 ≤ vs.length := le_trans (by norm_num) hk
    push_cast [Nat.cast_sub h1]
    ring
  rw [hcast]
  ring_nf

/-- Witness for C2 at a concrete two-member group over a one-gene axis. -/
theorem peer_consensus_is_mean_of_others_witness :
    peerConsensusAt (G := Fin 1) [fun _ => 1, fun _ => 3] ⟨0, by decide⟩ =
      meanOfOthers (G := Fin 1) [fun _ => 1, fun _ => 3] ⟨0, by decide⟩ :=
  peer_consensus_is_mean_of_others (G := Fin 1) [fun _ => 1, fun _ => 3] ⟨0, by decide⟩
    (by decide)

/-- Claim C6: with all records' r and p fixed, raising the threshold never
decreases the p-value-mode valid count and never increases the r-value-mode
valid count. -/
theorem valid_count_monotone (recs : List RawRecord) (t t' : ℚ) (h : t ≤ t') :
    countValidP recs t ≤ countValidP recs t' ∧ countValidR recs t' ≤ countValidR recs t := by
  constructor
  · apply length_filter_mono
    intro rec _ hrec
    obtain ⟨i0, d0, r0, p0, n0⟩ := rec
    cases r0 <;> cases p0 <;>
      simp only [validPvalue, oltB, ogtB, Option.isSome_none, Option.isSome_some,
        Bool.false_and, Bool.true_and, Bool.and_eq_true, decide_eq_true_eq] at hrec ⊢
    · exact hrec
    · exact hrec
    · exact hrec
    · exact ⟨lt_of_lt_of_le hrec.1 h, hrec.2⟩
  · apply length_filter_mono
    intro rec _ hrec
    obtain ⟨i0, d0, r0, p0, n0⟩ := rec
    cases r0 <;>
      simp only [validRvalue, ogtB, Option.isSome_none, Option.isSome_some,
        Bool.false_and, Bool.true_and, decide_eq_true_eq] at hrec ⊢
    · exact hrec
    · exact lt_of_le_of_lt h hrec

/-- Witness for C6 at a concrete record list and thresholds 0 ≤ 1. -/
theorem valid_count_monotone_witness :
    countValidP [⟨0, 0, some 1, some 0, 1⟩] 0 ≤ countValidP [⟨0, 0, some 1, some 0, 1⟩] 1 ∧
      countValidR [⟨0, 0, some 1, some 0, 1⟩] 1 ≤ countValidR [⟨0, 0, some 1, some 0, 1⟩] 0 :=
  valid_count_monotone [⟨0, 0, some 1, some 0, 1⟩] 0 1 (by norm_num)

/-- Claim C7: every experiment of a singleton replicate group (one metadata
instance) is recorded with NaN r and p and zero peers, and no filter mode at
any threshold marks it valid. -/
theorem singleton_group_unscored_invalid {G : Type} (pr : PearsonFn G)
    (cols : InstId → Option (G → ℚ)) (dname : DrugName) (ids : List InstId)
    (t c : ℚ) (h1 : ids.length = 1) :
    ∀ rec ∈ processGroup pr cols dname ids,
      rec.r = none ∧ rec.p = none ∧ rec.numPeers = 0 ∧
      validPvalue rec t = false ∧ validRvalue rec t = false ∧
      validPercentileAt rec c = false := by
  intro rec hrec
  have hv : (presentIds cols ids).length ≤ 1 := by
    have := List.length_filter_le (fun pid => (cols pid).isSome) ids
    unfold presentIds
    omega
  unfold processGroup at hrec
  rw [if_pos hv] at hrec
  rcases List.mem_map.mp hrec with ⟨pid, _, hpid⟩
  subst hpid
  refine ⟨rfl, rfl, rfl, ?_, ?_, ?_⟩ <;> rfl

/-- Concrete pearson stub: always NaN (degenerate). -/
def pearsonNone : PearsonFn (Fin 1) := fun _ _ => none

/-- Concrete signature matrix containing no columns at all. -/
def colsNone : InstId → Option (Fin 1 → ℚ) := fun _ => none

/-- Witness for C7: the group with single instance id 5, no matrix columns. -/
theorem singleton_group_unscored_invalid_witness :
    (⟨5, 0, none, none, 0⟩ : RawRecord).r = none ∧
      (⟨5, 0, none, none, 0⟩ : RawRecord).p = none ∧
      (⟨5, 0, none, none, 0⟩ : RawRecord).numPeers = 0 ∧
      validPvalue ⟨5, 0, none, none, 0⟩ 0 = false ∧
      validRvalue ⟨5, 0, none, none, 0⟩ 0 = false ∧
      validPercentileAt ⟨5, 0, none, none, 0⟩ 0 = false :=
  singleton_group_unscored_invalid pearsonNone colsNone 0 [5] 0 0 rfl
    ⟨5, 0, none, none, 0⟩ (by decide)

/-- Claim C10: a group with exactly two matrix-present instances takes the
scored path: both members receive full records with one peer, r and p
computed against the single remaining peer as the consensus; such records
are eligible for valid = 1 in p-value mode (the scoring threshold is one
peer, not two). -/
theorem two_member_groups_scored {G : Type} (pr : PearsonFn G)
    (cols : InstId → Option (G → ℚ)) (dname : DrugName) (ids : List InstId)
    (a b : InstId) (hab : presentIds cols ids = [a, b]) :
    processGroup pr cols dname ids =
      [⟨a, dname, some (pearsonSafe pr (colVec cols a) (colVec cols b)).1,
          some (pearsonSafe pr (colVec cols a) (colVec cols b)).2, 1⟩,
       ⟨b, dname, some (pearsonSafe pr (colVec cols b) (colVec cols a)).1,
          some (pearsonSafe pr (colVec cols b) (colVec cols a)).2, 1⟩] ∧
    (∀ rec ∈ processGroup pr cols dname ids, rec.r ≠ none ∧ rec.numPeers = 1) ∧
    (∀ (rec : RawRecord) (rv pv t : ℚ), rec.r = some rv → rec.p = some pv →
      0 < rv → pv < t → validPvalue rec t = true) := by
  have hconsA : loConsensus cols [a, b] a = colVec cols b := by
    funext g
    unfold loConsensus groupTotal
    simp only [List.map_cons, List.map_nil, List.sum_cons, List.sum_nil, List.length_cons,
      List.length_nil]
    norm_num
  have hconsB : loConsensus cols [a, b] b = colVec cols a := by
    funext g
    unfold loConsensus groupTotal
    simp only [List.map_cons, List.map_nil, List.sum_cons, List.sum_nil, List.length_cons,
      List.length_nil]
    norm_num
  have hmain : processGroup pr cols dname ids =
      [⟨a, dname, some (pearsonSafe pr (colVec cols a) (colVec cols b)).1,
          some (pearsonSafe pr (colVec cols a) (colVec cols b)).2, 1⟩,
       ⟨b, dname, some (pearsonSafe pr (colVec cols b) (colVec cols a)).1,
          some (pearsonSafe pr (colVec cols b) (colVec cols a)).2, 1⟩] := by
    unfold processGroup
    rw [hab]
    rw [if_neg (by norm_num)]
    simp only [List.map_cons, List.map_nil, hconsA, hconsB]
    rfl
  refine ⟨hmain, ?_, ?_⟩
  · intro rec hrec
    rw [hmain] at hrec
    rcases List.mem_cons.mp hrec with h | hrec2
    · subst h; exact ⟨by simp, rfl⟩
    rcases List.mem_cons.mp hrec2 with h | h3
    · subst h; exact ⟨by simp, rfl⟩
    · exact absurd h3 (List.not_mem_nil rec)
  · intro rec rv pv t h1 h2 h3 h4
    unfold validPvalue oltB ogtB
    rw [h1, h2]
    simp [h3, h4]

/-- Concrete pearson stub returning r = 1, p = 0. -/
def pearsonConst : PearsonFn (Fin 1) := fun _ _ => some (1, 0)

/-- Concrete signature matrix with columns for instances 0 and 1 only. -/
def colsTwo : InstId → Option (Fin 1 → ℚ) :=
  fun n => if n ≤ 1 then some (fun _ => (n : ℚ)) else none

/-- Witness for C10: the group with instance ids 0 and 1, both present. -/
theorem two_member_groups_scored_witness :
    processGroup pearsonConst colsTwo 0 [0, 1] =
      [⟨0, 0, some (pearsonSafe pearsonConst (colVec colsTwo 0) (colVec colsTwo 1)).1,
          some (pearsonSafe pearsonConst (colVec colsTwo 0) (colVec colsTwo 1)).2, 1⟩,
       ⟨1, 0, some (pearsonSafe pearsonConst (colVec colsTwo 1) (colVec colsTwo 0)).1,
          some (pearsonSafe pearsonConst (colVec colsTwo 1) (colVec colsTwo 0)).2, 1⟩] :=
  (two_member_groups_scored pearsonConst colsTwo 0 [0, 1] 0 1 (by decide)).1

/-! ## Rank transform (`extract_OG_tahoe_part_2_rank_and_save_parquet.py` main,
lines 189-205, and `filter_tahoe_part2_ranking.py`, Part 2A Step 4)

The source ranks each experiment column with
`DataFrame.rank(axis=0, method="first", ascending=False, na_option="bottom")`:
the rank of a row is 1 plus the number of rows strictly preceding it in the
order "larger effect size first; equal effect sizes by original row order;
NaN after every number, NaNs by original row order".  A column is a
`List (Option ℚ)` (`none` = NaN); the order is realised by an injective sort
key into the lexicographic order below. -/

/-- Sort key space: (is-NaN flag, effect size descending, original row). -/
abbrev RKey := Bool ×ₗ ℚᵒᵈ ×ₗ ℕ

/-- The sort key of row `i` of column `v` under
`method="first", ascending=False, na_option="bottom"`. -/
def rkey (v : List (Option ℚ)) (i : Fin v.length) : RKey :=
  match v.get i with
  | some a => toLex (false, toLex (OrderDual.toDual a, i.val))
  | none => toLex (true, toLex (OrderDual.toDual 0, i.val))

/-- The rank of row `i`: 1 plus the number of rows that precede it. -/
def rankOfIdx (v : List (Option ℚ)) (i : Fin v.length) : ℕ :=
  1 + (Finset.univ.filter (fun j => rkey v j < rkey v i)).card

/-- The ranked column. -/
def rankFirstDesc (v : List (Option ℚ)) : List ℕ := List.ofFn (fun i => rankOfIdx v i)

/-- Rows of a column have pairwise distinct sort keys (the key embeds the
row index). -/
theorem rkey_injective (v : List (Option ℚ)) : Function.Injective (rkey v) := by
  intro i j h
  have hnat : ((ofLex (ofLex (rkey v i)).2).2 : ℕ) = (ofLex (ofLex (rkey v j)).2).2 :=
    congrArg (fun x => (ofLex (ofLex x).2).2) h
  have hi : ((ofLex (ofLex (rkey v i)).2).2 : ℕ) = i.val := by
    unfold rkey
    rcases v.get i with _ | a <;> rfl
  have hj : ((ofLex (ofLex (rkey v j)).2).2 : ℕ) = j.val := by
    unfold rkey
    rcases v.get j with _ | a <;> rfl
  exact Fin.ext (by rw [← hi, ← hj, hnat])

/-- Ranks respect the key order strictly. -/
theorem rank_strict_mono (v : List (Option ℚ)) (i j : Fin v.length)
    (h : rkey v i < rkey v j) : rankOfIdx v i < rankOfIdx v j := by
  unfold rankOfIdx
  have hsub : (Finset.univ.filter (fun k => rkey v k < rkey v i)) ⊆
      (Finset.univ.filter (fun k => rkey v k < rkey v j)) := by
    intro k hk
    rw [Finset.mem_filter] at hk ⊢
    exact ⟨hk.1, lt_trans hk.2 h⟩
  have hmem : i ∈ Finset.univ.filter (fun k => rkey v k < rkey v j) := by
    rw [Finset.mem_filter]; exact ⟨Finset.mem_univ i, h⟩
  have hnmem : i ∉ Finset.univ.filter (fun k => rkey v k < rkey v i) := by
    rw [Finset.mem_filter]
    rintro ⟨-, hlt⟩
    exact lt_irrefl _ hlt
  have := Finset.card_lt_card ((Finset.ssubset_iff_of_subset hsub).mpr ⟨i, hmem, hnmem⟩)
  omega

/-- Distinct rows receive distinct ranks. -/
theorem rank_injective (v : List (Option ℚ)) :
    Function.Injective (fun i => rankOfIdx v i) := by
  intro i j h
  by_contra hne
  have hkey : rkey v i ≠ rkey v j := fun hk => hne (rkey_injective v hk)
  rcases lt_or_gt_of_ne hkey with hlt | hgt
  · exact absurd h (Nat.ne_of_lt (rank_strict_mono v i j hlt))
  · exact absurd h.symm (Nat.ne_of_lt (rank_strict_mono v j i hgt))

/-- Every rank lies in \x7b1, …, G\x7d. -/
theorem rank_mem_Icc (v : List (Option ℚ)) (i : Fin v.length) :
    rankOfIdx v i ∈ Finset.Icc 1 v.length := by
  rw [Finset.mem_Icc]
  constructor
  · unfold rankOfIdx; omega
  · unfold rankOfIdx
    have hsub : (Finset.univ.filter (fun k => rkey v k < rkey v i)) ⊆
        Finset.univ.erase i := by
      intro k hk
      rw [Finset.mem_filter] at hk
      rw [Finset.mem_erase]
      refine ⟨fun he => ?_, Finset.mem_univ k⟩
      subst he
      exact lt_irrefl _ hk.2
    have hcard := Finset.card_le_card hsub
    rw [Finset.card_erase_of_mem (Finset.mem_univ i)] at hcard
    simp only [Finset.card_univ, Fintype.card_fin] at hcard
    have hpos : 0 < v.length := i.pos
    omega

/-- The ranks of a column of length G are exactly \x7b1, …, G\x7d. -/
theorem rank_image_eq (v : List (Option ℚ)) :
    Finset.image (fun i => rankOfIdx v i) Finset.univ = Finset.Icc 1 v.length := by
  apply Finset.eq_of_subset_of_card_le
  · intro x hx
    rw [Finset.mem_image] at hx
    rcases hx with ⟨i, -, hi⟩
    exact hi ▸ rank_mem_Icc v i
  · rw [Finset.card_image_of_injective _ (rank_injective v)]
    simp

/-- The ranked column is a permutation of [1, …, G]. -/
theorem rank_perm (v : List (Option ℚ)) :
    (rankFirstDesc v).Perm ((List.range v.length).map (fun m => m + 1)) := by
  apply List.perm_of_nodup_nodup_toFinset_eq
  · exact List.nodup_ofFn.mpr (rank_injective v)
  · exact (List.nodup_range _).map (fun a b => by omega)
  · ext x
    simp only [List.mem_toFinset]
    unfold rankFirstDesc
    rw [List.mem_ofFn, Set.mem_range]
    simp only [List.mem_map, List.mem_range]
    constructor
    · rintro ⟨i, hi⟩
      have := hi ▸ rank_mem_Icc (v := v) i
      rw [Finset.mem_Icc] at this
      exact ⟨x - 1, by omega⟩
    · rintro ⟨m, hm, hmx⟩
      have hx : x ∈ Finset.Icc 1 v.length := by rw [Finset.mem_Icc]; omega
      rw [← rank_image_eq v] at hx
      rcases Finset.mem_image.mp hx with ⟨i, -, hi⟩
      exact ⟨i, hi⟩

/-- A strictly larger effect size precedes in the key order. -/
theorem rkey_lt_of_gt (v : List (Option ℚ)) (i j : Fin v.length) (a b : ℚ)
    (hi : v.get i = some a) (hj : v.get j = some b) (hab : b < a) :
    rkey v i < rkey v j := by
  unfold rkey
  rw [hi, hj]
  rw [Prod.Lex.lt_iff]
  right
  refine ⟨rfl, ?_⟩
  rw [Prod.Lex.lt_iff]
  left
  exact hab

/-- Ties are broken by original row order: first seen wins. -/
theorem rkey_lt_of_tie (v : List (Option ℚ)) (i j : Fin v.length)
    (he : v.get i = v.get j) (hij : i.val < j.val) : rkey v i < rkey v j := by
  unfold rkey
  rcases hv : v.get j with _ | a
  · rw [he, hv]
    rw [Prod.Lex.lt_iff]
    right
    exact ⟨rfl, by rw [Prod.Lex.lt_iff]; right; exact ⟨rfl, hij⟩⟩
  · rw [he, hv]
    rw [Prod.Lex.lt_iff]
    right
    exact ⟨rfl, by rw [Prod.Lex.lt_iff]; right; exact ⟨rfl, hij⟩⟩

/-- Any number precedes any NaN in the key order. -/
theorem rkey_lt_of_none (v : List (Option ℚ)) (i j : Fin v.length)
    (hi : v.get i ≠ none) (hj : v.get j = none) : rkey v i < rkey v j := by
  unfold rkey
  rcases hv : v.get i with _ | a
  · exact absurd hv hi
  · rw [hj]
    rw [Prod.Lex.lt_iff]
    left
    exact (show (false : Bool) < true from by decide)

/-- Claim C1: per column, rank 1 goes to the largest effect size and ranks
increase with descending effect size; ties break by original row order
(first occurrence gets the smaller rank); NaNs rank after every number; the
rank values are exactly \x7b1, …, G\x7d as a permutation of [1, …, G]; and the
effect vector [0.5, −0.2, 3.0, NaN] is ranked [2, 3, 1, 4]. -/
theorem rank_transform_correct (v : List (Option ℚ)) :
    (rankFirstDesc v).Perm ((List.range v.length).map (fun m => m + 1)) ∧
    (∀ (i j : Fin v.length) (a b : ℚ), v.get i = some a → v.get j = some b → b < a →
      rankOfIdx v i < rankOfIdx v j) ∧
    (∀ i j : Fin v.length, v.get i = v.get j → i.val < j.val →
      rankOfIdx v i < rankOfIdx v j) ∧
    (∀ i j : Fin v.length, v.get i ≠ none → v.get j = none →
      rankOfIdx v i < rankOfIdx v j) ∧
    rankFirstDesc [some (mkRat 1 2), some (mkRat (-1) 5), some 3, none] = [2, 3, 1, 4] ∧
    (mkRat 1 2 : ℚ) = 0.5 ∧ (mkRat (-1) 5 : ℚ) = -0.2 := by
  refine ⟨rank_perm v, ?_, ?_, ?_, by decide, ?_, ?_⟩
  · intro i j a b hi hj hab
    exact rank_strict_mono v i j (rkey_lt_of_gt v i j a b hi hj hab)
  · intro i j he hij
    exact rank_strict_mono v i j (rkey_lt_of_tie v i j he hij)
  · intro i j hi hj
    exact rank_strict_mono v i j (rkey_lt_of_none v i j hi hj)
  · norm_num [Rat.mkRat_eq_divInt, Rat.divInt_eq_div]
  · norm_num [Rat.mkRat_eq_divInt, Rat.divInt_eq_div]

/-! ## Column-batched ranking (C5)

Both ranking scripts loop `for start in range(0, len(cols), CHUNK_SIZE)`,
rank the column slice `iloc[:, start:end]` independently, and concatenate
with `pd.concat(ranked_chunks, axis=1)`.  The matrix is modelled as its
list of experiment columns. -/

/-- The column batches `cols[start:start+b]` produced by
`range(0, len(cols), b)` slicing. -/
def chunked {α : Type} (b : ℕ) : List α → List (List α)
  | [] => []
  | x :: xs =>
    if b = 0 then [] else (x :: xs).take b :: chunked b ((x :: xs).drop b)
termination_by l => l.length
decreasing_by
  rename_i hb
  simp only [List.length_drop, List.length_cons]
  omega

/-- Single-pass ranking of every experiment column. -/
def rankMatrix (cols : List (List (Option ℚ))) : List (List ℕ) :=
  cols.map rankFirstDesc

/-- Batched ranking: rank each column batch independently, concatenate. -/
def rankMatrixChunked (b : ℕ) (cols : List (List (Option ℚ))) : List (List ℕ) :=
  ((chunked b cols).map (fun c => c.map rankFirstDesc)).flatten

/-- Concatenating the batches of a positive batch size recovers the list. -/
theorem chunked_flatten_le {α : Type} (b : ℕ) (hb : 0 < b) :
    ∀ (n : ℕ) (l : List α), l.length ≤ n → (chunked b l).flatten = l := by
  intro n
  induction n with
  | zero =>
    intro l hl
    have h0 : l = [] := List.eq_nil_of_length_eq_zero (by omega)
    subst h0
    rw [chunked]
    rfl
  | succ n ih =>
    intro l hl
    match l with
    | [] => rw [chunked]; rfl
    | x :: xs =>
      rw [chunked]
      rw [if_neg (by omega)]
      rw [List.flatten_cons,
        ih ((x :: xs).drop b) (by simp only [List.length_drop]; simp at hl ⊢; omega)]
      exact List.take_append_drop b (x :: xs)

/-- `chunked_flatten_le` without the length bound. -/
theorem chunked_flatten {α : Type} (b : ℕ) (hb : 0 < b) (l : List α) :
    (chunked b l).flatten = l :=
  chunked_flatten_le b hb l.length l le_rfl

/-- Claim C5: for every input matrix and every positive batch size, ranking
in fixed-size column batches and concatenating equals ranking all columns in
one pass — batch boundaries cannot affect any column's ranks. -/
theorem batch_ranking_equals_single_pass (cols : List (List (Option ℚ))) (b : ℕ)
    (hb : 0 < b) : rankMatrixChunked b cols = rankMatrix cols := by
  unfold rankMatrixChunked rankMatrix
  rw [← List.map_flatten, chunked_flatten b hb]

/-- Witness for C5: a three-column matrix at the batch size 2. -/
theorem batch_ranking_equals_single_pass_witness :
    rankMatrixChunked 2 [[some 1, none], [none, some 0], [some 2, some 3]] =
      rankMatrix [[some 1, none], [none, some 0], [some 2, some 3]] :=
  batch_ranking_equals_single_pass [[some 1, none], [none, some 0], [some 2, some 3]] 2
    (by norm_num)

/-! ## Gene-identifier harmonization (C3, C4)

After symbol → canonical-id mapping, both ranking scripts run
`transposed.groupby("entrezID").mean(numeric_only=True)` — one output row
per distinct canonical id (pandas sorts group keys ascending), holding the
elementwise mean over the group — and `filter_tahoe_part2_ranking.py`
(line 97) then applies the hard shared-id filter
`transposed.loc[transposed.index.intersection(shared_entrez_ids)]`.
A table is a list of (canonical id, row vector) pairs. -/

/-- The row vectors of a table sharing the canonical id `k`. -/
def membersOf {G : Type} (rows : List (ℤ × (G → ℚ))) (k : ℤ) : List (G → ℚ) :=
  (rows.filter (fun r => decide (r.1 = k))).map Prod.snd

/-- The elementwise arithmetic mean of a list of row vectors. -/
def meanVec {G : Type} (ms : List (G → ℚ)) : G → ℚ :=
  fun g => (ms.map (fun w => w g)).sum / (ms.length : ℚ)

/-- `groupby("entrezID").mean()`: one row per distinct canonical id, keys
ascending, value the elementwise mean of the group's members. -/
def groupKeyMean {G : Type} (rows : List (ℤ × (G → ℚ))) : List (ℤ × (G → ℚ)) :=
  ((rows.map Prod.fst).dedup.insertionSort (· ≤ ·)).map
    (fun k => (k, meanVec (membersOf rows k)))

/-- The shared-id hard filter applied after collapsing:
`.loc[index.intersection(shared_entrez_ids)]`. -/
def harmonizeShared {G : Type} (rows : List (ℤ × (G → ℚ))) (ref : Finset ℤ) :
    List (ℤ × (G → ℚ)) :=
  (groupKeyMean rows).filter (fun r => decide (r.1 ∈ ref))

/-- The key column of the collapsed table is the sorted dedup of the input
keys. -/
theorem groupKeyMean_keys {G : Type} (rows : List (ℤ × (G → ℚ))) :
    (groupKeyMean rows).map Prod.fst =
      (rows.map Prod.fst).dedup.insertionSort (· ≤ ·) := by
  unfold groupKeyMean
  rw [List.map_map]
  have hc : (Prod.fst ∘ fun k : ℤ => (k, meanVec (membersOf rows k))) = id := rfl
  rw [hc, List.map_id]

/-- Claim C3: collapsing reduces each canonical-id group to a single output
row (output ids are pairwise distinct and are exactly the input ids) equal
to the elementwise mean of the group's members; two rows [1,2,3] and
[3,4,5] sharing id 10 collapse to [2,3,4]. -/
theorem harmonizer_collapse_is_mean {G : Type} (rows : List (ℤ × (G → ℚ))) :
    ((groupKeyMean rows).map Prod.fst).Nodup ∧
    (∀ k : ℤ, k ∈ (groupKeyMean rows).map Prod.fst ↔ k ∈ rows.map Prod.fst) ∧
    (∀ (k : ℤ) (v : G → ℚ), (k, v) ∈ groupKeyMean rows → v = meanVec (membersOf rows k)) ∧
    groupKeyMean [((10 : ℤ), ![(1 : ℚ), 2, 3]), (10, ![3, 4, 5])] = [(10, ![2, 3, 4])] := by
  refine ⟨?_, ?_, ?_, ?_⟩
  · rw [groupKeyMean_keys]
    exact (List.nodup_dedup _).perm (List.perm_insertionSort _ _).symm
  · intro k
    rw [groupKeyMean_keys]
    rw [List.mem_insertionSort, List.mem_dedup]
  · intro k v hkv
    unfold groupKeyMean at hkv
    rcases List.mem_map.mp hkv with ⟨k2, -, hk2⟩
    have hk : k2 = k := congrArg Prod.fst hk2
    have hv : meanVec (membersOf rows k2) = v := congrArg Prod.snd hk2
    rw [← hv, hk]
  · have h1 : groupKeyMean [((10 : ℤ), ![(1 : ℚ), 2, 3]), (10, ![3, 4, 5])] =
        [(10, meanVec (membersOf [((10 : ℤ), ![(1 : ℚ), 2, 3]), (10, ![3, 4, 5])] 10))] := rfl
    rw [h1]
    congr 1
    congr 1
    funext g
    fin_cases g <;> norm_num [meanVec, membersOf]

/-- Claim C4: with a reference shared-id set, every id in the harmonizer's
output belongs to the reference set (subset, never superset); with
reference \x7b10, 20\x7d an id 30 resolved from the source cannot appear in the
output. -/
theorem shared_id_filter_subset {G : Type} (rows : List (ℤ × (G → ℚ))) (ref : Finset ℤ) :
    (∀ r ∈ harmonizeShared rows ref, r.1 ∈ ref) ∧
    (harmonizeShared [((30 : ℤ), ![(1 : ℚ), 2, 3]), (10, ![3, 4, 5])]
      ({10, 20} : Finset ℤ)).map Prod.fst = [10] ∧
    (30 : ℤ) ∉ (harmonizeShared [((30 : ℤ), ![(1 : ℚ), 2, 3]), (10, ![3, 4, 5])]
      ({10, 20} : Finset ℤ)).map Prod.fst := by
  have hconc : (harmonizeShared [((30 : ℤ), ![(1 : ℚ), 2, 3]), (10, ![3, 4, 5])]
      ({10, 20} : Finset ℤ)).map Prod.fst = [10] := rfl
  refine ⟨?_, hconc, ?_⟩
  · intro r hr
    have := List.of_mem_filter hr
    simpa using this
  · intro h
    rw [hconc] at h
    simp at h

/-! ## Gene-symbol lookup dictionary (C8)

`extract_OG_tahoe_part_2_rank_and_save_parquet.py` lines 148-152 (and
`compare_tahoe_cmap.py` line 155) build the symbol → canonical-id lookup
as `gene_map.drop_duplicates(subset=["Gene_name"])` (pandas keeps the first
occurrence) followed by `dict(zip(names, ids))` (a Python dict keeps the
last binding per key).  Symbols are an opaque type `S` with decidable
equality. -/

/-- pandas `drop_duplicates(subset=[key])`, default `keep="first"`: keep
each key's first row, preserving order. -/
def dropDupFirst {S : Type} [DecidableEq S] : List (S × ℤ) → List (S × ℤ)
  | [] => []
  | p :: rest => p :: dropDupFirst (rest.filter (fun q => decide (q.1 ≠ p.1)))
termination_by l => l.length
decreasing_by
  simp only [List.length_cons]
  have := List.length_filter_le (fun q => decide (q.1 ≠ p.1)) rest
  omega

/-- One `dict` insertion: a later binding of the same key overwrites. -/
def dictInsert {S : Type} [DecidableEq S] (acc : S → Option ℤ) (q : S × ℤ) : S → Option ℤ :=
  Function.update acc q.1 (some q.2)

/-- `dict(zip(keys, values))`: fold the pair list into a map, left to
right. -/
def dictOfPairs {S : Type} [DecidableEq S] (l : List (S × ℤ)) : S → Option ℤ :=
  l.foldl dictInsert (fun _ => none)

/-- The source's lookup construction: de-duplicate first, then build the
dict. -/
def buildGeneMap {S : Type} [DecidableEq S] (table : List (S × ℤ)) : S → Option ℤ :=
  dictOfPairs (dropDupFirst table)

/-- Looking up a folded dict returns the value of the key's last binding
(or falls back to the initial map). -/
theorem foldl_update_lookup {S : Type} [DecidableEq S] :
    ∀ (l : List (S × ℤ)) (m : S → Option ℤ) (s : S),
      (l.foldl dictInsert m) s =
        match l.reverse.find? (fun p => decide (p.1 = s)) with
        | some p => some p.2
        | none => m s := by
  intro l
  induction l with
  | nil => intro m s; rfl
  | cons p rest ih =>
    intro m s
    rw [List.foldl_cons, ih, List.reverse_cons, List.find?_append]
    rcases hfind : rest.reverse.find? (fun q => decide (q.1 = s)) with _ | q
    · rw [hfind]
      simp only [Option.none_or]
      by_cases hps : p.1 = s
      · rw [List.find?_cons_of_pos _ (by simp [hps])]
        simp [dictInsert, Function.update_apply, hps]
      · rw [List.find?_cons_of_neg _ (by simp [hps])]
        have hsp : ¬ (s = p.1) := fun h => hps h.symm
        simp [dictInsert, Function.update_apply, hsp]
    · rw [hfind]
      rfl

/-- Dropping every row of key `k` does not change the first row found for a
key `s ≠ k`. -/
theorem find?_filter_other {S : Type} [DecidableEq S] (k s : S) (hks : s ≠ k) :
    ∀ l : List (S × ℤ),
      (l.filter (fun q => decide (q.1 ≠ k))).find? (fun p => decide (p.1 = s)) =
        l.find? (fun p => decide (p.1 = s)) := by
  intro l
  induction l with
  | nil => rfl
  | cons q rest ih =>
    rw [List.filter_cons]
    by_cases hk : q.1 = k
    · rw [if_neg (by simp [hk])]
      rw [ih, List.find?_cons_of_neg _
        (by rw [hk]; simp only [decide_eq_true_eq]; exact Ne.symm hks)]
    · rw [if_pos (by simp [hk])]
      by_cases hqs : q.1 = s
      · rw [List.find?_cons_of_pos _ (by simp [hqs]),
          List.find?_cons_of_pos _ (by simp [hqs])]
      · rw [List.find?_cons_of_neg _ (by simp [hqs]),
          List.find?_cons_of_neg _ (by simp [hqs]), ih]

/-- De-duplication preserves the first row found for every key. -/
theorem dropDupFirst_find? {S : Type} [DecidableEq S] (t : List (S × ℤ)) (s : S) :
    (dropDupFirst t).find? (fun p => decide (p.1 = s)) =
      t.find? (fun p => decide (p.1 = s)) := by
  induction t using dropDupFirst.induct with
  | case1 => rw [dropDupFirst]
  | case2 p rest ih =>
    rw [dropDupFirst]
    by_cases hps : p.1 = s
    · rw [List.find?_cons_of_pos _ (by simp [hps]),
        List.find?_cons_of_pos _ (by simp [hps])]
    · rw [List.find?_cons_of_neg _ (by simp [hps]),
        List.find?_cons_of_neg _ (by simp [hps])]
      rw [ih, find?_filter_other p.1 s (fun h => hps h.symm) rest]

/-- Every row kept by de-duplication is a row of the input. -/
theorem dropDupFirst_mem {S : Type} [DecidableEq S] (t : List (S × ℤ)) (q : S × ℤ)
    (h : q ∈ dropDupFirst t) : q ∈ t := by
  induction t using dropDupFirst.induct with
  | case1 => rw [dropDupFirst] at h; exact absurd h (List.not_mem_nil q)
  | case2 p rest ih =>
    rw [dropDupFirst] at h
    rcases List.mem_cons.mp h with h | h
    · exact h ▸ List.mem_cons_self p rest
    · exact List.mem_cons_of_mem p (List.mem_of_mem_filter (ih h))

/-- After de-duplication, keys are pairwise distinct. -/
theorem dropDupFirst_keys_nodup {S : Type} [DecidableEq S] (t : List (S × ℤ)) :
    ((dropDupFirst t).map Prod.fst).Nodup := by
  induction t using dropDupFirst.induct with
  | case1 => rw [dropDupFirst]; exact List.nodup_nil
  | case2 p rest ih =>
    rw [dropDupFirst, List.map_cons]
    refine List.nodup_cons.mpr ⟨?_, ih⟩
    intro hmem
    rcases List.mem_map.mp hmem with ⟨q, hq, hqp⟩
    have hq2 := dropDupFirst_mem _ q hq
    have := List.of_mem_filter hq2
    rw [decide_eq_true_eq] at this
    exact this hqp

/-- With pairwise-distinct keys, the last matching row equals the first. -/
theorem find?_reverse_of_keys_nodup {S : Type} [DecidableEq S] (s : S) :
    ∀ l : List (S × ℤ), ((l.map Prod.fst).Nodup) →
      l.reverse.find? (fun p => decide (p.1 = s)) = l.find? (fun p => decide (p.1 = s)) := by
  intro l
  induction l with
  | nil => intro _; rfl
  | cons p rest ih =>
    intro hnd
    rw [List.map_cons, List.nodup_cons] at hnd
    rw [List.reverse_cons, List.find?_append, ih hnd.2]
    by_cases hps : p.1 = s
    · have hrest : rest.find? (fun q => decide (q.1 = s)) = none := by
        rw [List.find?_eq_none]
        intro q hq
        rw [decide_eq_true_eq]
        intro hqs
        exact hnd.1 (List.mem_map.mpr ⟨q, hq, by rw [hqs, hps]⟩)
      have h1 : ([p] : List (S × ℤ)).find? (fun q => decide (q.1 = s)) = some p :=
        List.find?_cons_of_pos _ (by simp [hps])
      have h2 : (p :: rest).find? (fun q => decide (q.1 = s)) = some p :=
        List.find?_cons_of_pos _ (by simp [hps])
      rw [hrest, Option.none_or, h1, h2]
    · have h1 : ([p] : List (S × ℤ)).find? (fun q => decide (q.1 = s)) = none := by
        rw [List.find?_cons_of_neg _ (by simp [hps])]
        rfl
      have h2 : (p :: rest).find? (fun q => decide (q.1 = s)) =
          rest.find? (fun q => decide (q.1 = s)) :=
        List.find?_cons_of_neg _ (by simp [hps])
      rw [h1, h2]
      cases rest.find? (fun q => decide (q.1 = s)) <;> rfl

/-- The built dictionary resolves every symbol to the id of the symbol's
first occurrence in the mapping table. -/
theorem buildGeneMap_lookup {S : Type} [DecidableEq S] (table : List (S × ℤ)) (s : S) :
    buildGeneMap table s = (table.find? (fun p => decide (p.1 = s))).map Prod.snd := by
  unfold buildGeneMap dictOfPairs
  rw [foldl_update_lookup, find?_reverse_of_keys_nodup s _ (dropDupFirst_keys_nodup table),
    dropDupFirst_find?]
  cases table.find? (fun p => decide (p.1 = s)) <;> rfl


/-- Claim C8: duplicate gene symbols are de-duplicated keeping the first
occurrence before the lookup dict is built, so every lookup resolves to
the id of the symbol's first occurrence in the table; in particular a
symbol bound to 1 first and 2 later resolves to 1. -/
theorem gene_map_resolves_first_occurrence {S : Type} [DecidableEq S]
    (table : List (S × ℤ)) (s : S) :
    buildGeneMap table s = (table.find? (fun p => decide (p.1 = s))).map Prod.snd ∧
    buildGeneMap [((7 : ℕ), (1 : ℤ)), (7, 2)] 7 = some 1 := by
  refine ⟨buildGeneMap_lookup table s, ?_⟩
  rw [buildGeneMap_lookup]
  rfl

/-! ## Sorted-read / unsort column selection (C9)

`extract_OG_tahoe_part_1.py`: `part1_h5_to_parquet` (lines 346-350)
precomputes `col_order = np.argsort(col_idx_keep)`,
`col_sorted = col_idx_keep[col_order]`, `col_unsort = np.argsort(col_order)`;
`process_h5_chunk` (lines 216-218) then reads
`block_cols_sorted = np.take(block_full, col_sorted, axis=1)` and permutes
`block_cols = block_cols_sorted[:, col_unsort]`.  `argsort` is modelled as
the permutation of positions sorted by (value, position) — the unique
stably-sorted argsort; a matrix row is a total function from physical
column index to value. -/

/-- argsort key of position i in l: (value, position). -/
def keyA (l : List ℕ) (i : ℕ) : ℕ ×ₗ ℕ := toLex (l.getD i 0, i)

/-- Position comparison underlying argsort. -/
def argRel (l : List ℕ) (i j : ℕ) : Prop := keyA l i ≤ keyA l j

instance (l : List ℕ) : DecidableRel (argRel l) := fun i j =>
  inferInstanceAs (Decidable (keyA l i ≤ keyA l j))

instance (l : List ℕ) : IsTotal ℕ (argRel l) := ⟨fun _ _ => le_total _ _⟩

instance (l : List ℕ) : IsTrans ℕ (argRel l) := ⟨fun _ _ _ h1 h2 => le_trans h1 h2⟩

/-- `np.argsort l`: the positions of `l` sorted by value (ties by
position). -/
def argsort (l : List ℕ) : List ℕ := (List.range l.length).insertionSort (argRel l)

/-- argsort returns a permutation of the positions. -/
theorem argsort_perm (l : List ℕ) : (argsort l).Perm (List.range l.length) :=
  List.perm_insertionSort _ _

/-- argsort preserves length. -/
theorem argsort_length (l : List ℕ) : (argsort l).length = l.length :=
  (argsort_perm l).length_eq.trans (List.length_range _)

/-- argsort is sorted under the key order. -/
theorem argsort_sorted (l : List ℕ) : List.Sorted (argRel l) (argsort l) :=
  List.sorted_insertionSort _ _

/-- Every argsort entry is a valid position. -/
theorem argsort_mem_lt (l : List ℕ) (i : ℕ) (h : i ∈ argsort l) : i < l.length := by
  have := (argsort_perm l).mem_iff.mp h
  exact List.mem_range.mp this

/-- Reading a list at positions 0, …, n−1 gives the list back. -/
theorem map_getD_range (l : List ℕ) :
    (List.range l.length).map (fun i => l.getD i 0) = l := by
  apply List.ext_getElem
  · rw [List.length_map, List.length_range]
  · intro i h1 h2
    rw [List.getElem_map, List.getElem_range, List.getD_eq_getElem l 0 h2]

/-- The key order refines the value order. -/
theorem argRel_getD_le (l : List ℕ) (a b : ℕ) (h : argRel l a b) :
    l.getD a 0 ≤ l.getD b 0 := by
  unfold argRel keyA at h
  rcases (Prod.Lex.le_iff _ _).mp h with h1 | ⟨h1, -⟩
  · exact le_of_lt h1
  · exact le_of_eq h1

/-- applying argsort to a permutation of [0, …, n−1] yields its inverse:
reading the permutation at the argsort positions gives back 0, 1, …, n−1. -/
theorem argsort_inverts (l : List ℕ) (hl : l.Perm (List.range l.length)) (j : ℕ)
    (hj : j < l.length) : l.getD ((argsort l).getD j 0) 0 = j := by
  have hperm : (argsort l).Perm (List.range l.length) := argsort_perm l
  have hlen : (argsort l).length = l.length := argsort_length l
  have hmap1 : ((argsort l).map (fun i => l.getD i 0)).Perm l := by
    have h1 := hperm.map (fun i => l.getD i 0)
    rw [map_getD_range] at h1
    exact h1
  have hml : ((argsort l).map (fun i => l.getD i 0)).Perm (List.range l.length) :=
    hmap1.trans hl
  have hs : List.Sorted (· ≤ ·) ((argsort l).map (fun i => l.getD i 0)) :=
    List.Pairwise.map (fun i => l.getD i 0) (fun a b h => argRel_getD_le l a b h)
      (argsort_sorted l)
  have heq : (argsort l).map (fun i => l.getD i 0) = List.range l.length :=
    List.eq_of_perm_of_sorted hml hs (List.sorted_le_range _)
  have hjm : j < ((argsort l).map (fun i => l.getD i 0)).length := by
    rw [List.length_map, hlen]; exact hj
  have hr : j < (List.range l.length).length := by
    rw [List.length_range]; exact hj
  have := congrArg (fun t => t.getD j 0) heq
  simp only at this
  rw [List.getD_eq_getElem _ 0 hjm, List.getElem_map] at this
  rw [List.getD_eq_getElem (List.range l.length) 0 hr, List.getElem_range] at this
  rw [← List.getD_eq_getElem (argsort l) 0 (by rw [hlen]; exact hj)] at this
  exact this

/-- `np.take(block, idxs, axis=1)` on one matrix row. -/
def takeCols {α : Type} (row : ℕ → α) (idxs : List ℕ) : List α := idxs.map row

/-- numpy fancy indexing `xs[idxs]` on one row (default for out-of-range,
never hit at valid positions). -/
def fancyIndex {α : Type} (xs : List α) (d : α) (idxs : List ℕ) : List α :=
  idxs.map (fun j => xs.getD j d)

/-- `col_sorted = col_idx_keep[col_order]`. -/
def sortedCols (cols : List ℕ) : List ℕ := (argsort cols).map (fun j => cols.getD j 0)

/-- `col_unsort = np.argsort(col_order)`. -/
def unsortIdx (cols : List ℕ) : List ℕ := argsort (argsort cols)

/-- Reading a row at the sorted column order and permuting by the unsort
index returns the row's values at the caller-requested columns, in order. -/
theorem sorted_read_unsort_row {α : Type} (d : α) (row : ℕ → α) (cols : List ℕ) :
    fancyIndex (takeCols row (sortedCols cols)) d (unsortIdx cols) = takeCols row cols := by
  have hordperm : (argsort cols).Perm (List.range (argsort cols).length) := by
    rw [argsort_length]
    exact argsort_perm cols
  have hul : (unsortIdx cols).length = cols.length := by
    unfold unsortIdx
    rw [argsort_length, argsort_length]
  have hscl : (sortedCols cols).length = cols.length := by
    unfold sortedCols
    rw [List.length_map, argsort_length]
  apply List.ext_getElem
  · unfold fancyIndex takeCols
    rw [List.length_map, List.length_map, hul]
  · intro t h1 h2
    unfold fancyIndex takeCols
    have htu : t < (unsortIdx cols).length := by
      unfold fancyIndex takeCols at h1
      rw [List.length_map] at h1
      exact h1
    rw [List.getElem_map, List.getElem_map]
    have hut : (unsortIdx cols).getD t 0 = (unsortIdx cols)[t] :=
      (List.getD_eq_getElem _ 0 htu).symm ▸ rfl
    have hutlt : (unsortIdx cols)[t] < cols.length := by
      have hmem : (unsortIdx cols)[t] ∈ unsortIdx cols := List.getElem_mem htu
      unfold unsortIdx at hmem
      have := argsort_mem_lt (argsort cols) _ hmem
      rw [argsort_length] at this
      exact this
    -- main inversion: order[unsort[t]] = t
    have hinv : (argsort cols).getD ((argsort (argsort cols)).getD t 0) 0 = t := by
      apply argsort_inverts (argsort cols) hordperm
      rw [argsort_length]
      rw [hul] at htu
      exact htu
    -- rewrite getD as getElem forms
    have hgd : ((sortedCols cols).map row).getD ((unsortIdx cols)[t]) d =
        row ((sortedCols cols).getD ((unsortIdx cols)[t]) 0) := by
      have hlt : ((unsortIdx cols)[t] : ℕ) < ((sortedCols cols).map row).length := by
        rw [List.length_map, hscl]
        exact hutlt
      rw [List.getD_eq_getElem _ d hlt, List.getElem_map,
        ← List.getD_eq_getElem (sortedCols cols) 0 (by rw [hscl]; exact hutlt)]
    have hsc : (sortedCols cols).getD ((unsortIdx cols)[t]) 0 =
        cols.getD ((argsort cols).getD ((unsortIdx cols)[t]) 0) 0 := by
      have hlt2 : ((unsortIdx cols)[t] : ℕ) < (sortedCols cols).length := by
        rw [hscl]; exact hutlt
      unfold sortedCols at hlt2 ⊢
      rw [List.getD_eq_getElem _ 0 hlt2, List.getElem_map,
        ← List.getD_eq_getElem (argsort cols) 0 (by
          rw [List.length_map] at hlt2
          exact hlt2)]
    rw [hgd, hsc]
    have hu2 : (unsortIdx cols)[t] = (unsortIdx cols).getD t 0 :=
      (List.getD_eq_getElem _ 0 htu).symm
    rw [hu2]
    unfold unsortIdx
    rw [hinv]
    have htc : t < cols.length := by
      unfold takeCols at h2
      rw [List.length_map] at h2
      exact h2
    rw [List.getD_eq_getElem cols 0 htc]

/-- Claim C9: for every requested column-index list, every matrix and every
row, selecting the ascending-sorted columns `cols[argsort cols]` and then
permuting by `argsort (argsort cols)` yields exactly the columns in the
caller-specified order `cols`. -/
theorem sorted_read_then_unsort_correct {α : Type} (d : α) (cols : List ℕ)
    (row : ℕ → α) (block : List (ℕ → α)) :
    fancyIndex (takeCols row (sortedCols cols)) d (unsortIdx cols) = takeCols row cols ∧
    block.map (fun r => fancyIndex (takeCols r (sortedCols cols)) d (unsortIdx cols)) =
      block.map (fun r => takeCols r cols) := by
  refine ⟨sorted_read_unsort_row d row cols, ?_⟩
  apply List.map_congr_left
  intro r _
  exact sorted_read_unsort_row d r cols

end DrugRepro
